import Mathlib

/-!
Verification of the MeSHConditionsParser pipeline.

The repository has two Python programs used in sequence:
  * `MeSHParser.py` (the Condenser): walks an XML tree of MeSH descriptor
    records, keeps those whose first tree number starts with `C`
    (`isCondition`), condenses each kept descriptor into a pair of a
    lowercased term and a record `{mesh_code, entry_terms}`
    (`parseCondition`), and collects the pairs into a dict keyed by term
    (`parseFile`).
  * `JSONMeSHAliasParser.py` (the Expander): reads the dict back and, for
    every term and every alias in that term's `entry_terms`, writes one
    `(alias, term)` row to a CSV sink (`parseFile`).

The Lean development below is a shallow embedding of that code.  XML
elements are modelled as trees with a tag name, optional text, and a list
of children; `Element.find` / `Element.findall` only inspect direct
children, exactly like Python ElementTree's one-level `find`/`findall`
calls used by the source.  Python's fatal `exit()` calls are modelled with
`Except`: a `CondErr` names which extraction failed inside
`parseCondition`, and a `RunErr` distinguishes a fatal condensation error
from an uncaught exception (`crash`), which the source raises when
`isCondition` indexes `code[0]` on a `None` or empty text outside its
`try` block.  Python's `str.lower()` is modelled as ASCII lowercasing
(`pyLower`), and dict insertion with its replace-in-place /
append-if-fresh semantics (`dictInsert`).
-/

deriving instance DecidableEq for Except

/-- An XML element: a tag name, optional text content, and child elements.
Models the ElementTree `Element` objects the source traverses. -/
inductive Element where
  | node (name : String) (text : Option String) (children : List Element)

/-- Tag name of an element. -/
def Element.name : Element → String
  | .node n _ _ => n

/-- Text content of an element; `none` models Python's `element.text is None`. -/
def Element.text : Element → Option String
  | .node _ t _ => t

/-- Child elements, in document order. -/
def Element.children : Element → List Element
  | .node _ _ c => c

/-- `e.find tag`: first direct child with the given tag, as in ElementTree;
`none` models Python's `None` result. -/
def Element.find (e : Element) (tag : String) : Option Element :=
  e.children.find? (fun c => c.name == tag)

/-- `e.findall tag`: all direct children with the given tag, in document
order, as in ElementTree. -/
def Element.findall (e : Element) (tag : String) : List Element :=
  e.children.filter (fun c => c.name == tag)

/-- ASCII lowercasing of one character, modelling what Python's
`str.lower()` does on the A-Z range. -/
def lowerChar (c : Char) : Char :=
  if 65 ≤ c.toNat ∧ c.toNat ≤ 90 then Char.ofNat (c.toNat + 32) else c

/-- Model of Python's `str.lower()`: lowercase every character. -/
def pyLower (s : String) : String :=
  ⟨s.data.map lowerChar⟩

/-- The condensed representation `parseCondition` builds for one condition:
`mesh_code` is the text of the first tree number (Python can store `None`
here, hence `Option`), `entry_terms` the flattened list of lowercased
entry-term strings. -/
structure Record where
  mesh_code : Option String
  entry_terms : List String
deriving DecidableEq

/-- Which extraction inside `parseCondition` failed; each constructor
corresponds to one `except:` branch of the source that prints a
diagnostic and calls `exit()`. -/
inductive CondErr where
  | termErr
  | codeErr
  | aliasErr
deriving DecidableEq

/-- The diagnostic `parseCondition` prints before terminating, copied
verbatim from the source (the alias branch's message really does say
"brand name data of drug": the source reuses a drug parser's wording). -/
def condErrMsg : CondErr → String
  | .termErr => "Error: could not retrieve MeSH term of condition"
  | .codeErr => "Error: could not retrieve MeSH code of condition"
  | .aliasErr => "Error: could not retrieve brand name data of drug"

namespace MeSHParser

/-- The body of the inner entry-terms loop of `parseCondition`:
`termName = termX.find('String').text.lower()` followed by
`entryTerms.append(termName)`.  A missing `String` child or `None` text
raises an `AttributeError`, caught by the surrounding bare `except:`. -/
def parseTermString (acc2 : List String) (termX : Element) : Except CondErr (List String) :=
  match termX.find ("String") with
  | none => .error .aliasErr
  | some s =>
    match s.text with
    | none => .error .aliasErr
    | some t => .ok (acc2 ++ [pyLower t])

/-- The body of the outer entry-terms loop of `parseCondition`:
`termList = concept.find('TermList')`, then the inner loop over
`termList.findall('Term')`; `findall` on a `None` term list raises. -/
def parseConceptTerms (acc : List String) (concept : Element) : Except CondErr (List String) :=
  match concept.find ("TermList") with
  | none => .error .aliasErr
  | some termList => (termList.findall ("Term")).foldlM parseTermString acc

/-- The entry-terms block of `parseCondition`: `conceptList =
conditionData.find('ConceptList')`, then both nested loops appending to
`entryTerms` (which starts empty); any `AttributeError` on the way is
caught by the bare `except:` and is fatal. -/
def extractEntryTerms (conditionData : Element) : Except CondErr (List String) :=
  match conditionData.find ("ConceptList") with
  | none => .error .aliasErr
  | some conceptList =>
    (conceptList.findall ("Concept")).foldlM parseConceptTerms []

/-- `parseCondition`: extract the lowercased term from
`DescriptorName/String`, the code from `TreeNumberList/TreeNumber` (its
`.text`, which may be `None`), and the flattened entry terms; each failed
extraction is fatal with its own `CondErr`. -/
def parseCondition (conditionData : Element) : Except CondErr (String × Record) :=
  match (conditionData.find ("DescriptorName")).bind (fun d => d.find ("String")) with
  | none => .error .termErr
  | some s =>
    match s.text with
    | none => .error .termErr
    | some nm =>
      match conditionData.find ("TreeNumberList") with
      | none => .error .codeErr
      | some tnl =>
        match tnl.find ("TreeNumber") with
        | none => .error .codeErr
        | some tn =>
          match extractEntryTerms conditionData with
          | .error e => .error e
          | .ok entryTerms => .ok (pyLower nm, ⟨tn.text, entryTerms⟩)

/-- `isCondition`: read the first tree number's text and test that its
first character is `C`.  The path lookups sit inside a `try` that returns
`False`, but the indexing `code[0]` happens after the `try`: when the
`TreeNumber` leaf exists and its text is `None` (a `TypeError`) or the
empty string (an `IndexError`), the exception is uncaught, modelled as
`.error ()`. -/
def isCondition (descriptor : Element) : Except Unit Bool :=
  match descriptor.find ("TreeNumberList") with
  | none => .ok false
  | some tnl =>
    match tnl.find ("TreeNumber") with
    | none => .ok false
    | some tn =>
      match tn.text with
      | none => .error ()
      | some code =>
        match code.data with
        | [] => .error ()
        | c :: _ => .ok (c == 'C')

/-- Python-dict insertion: if the key is present, replace its value in
place (keeping the original position); otherwise append at the end.
Models `data[term] = record` on an insertion-ordered `dict`. -/
def dictInsert (m : List (String × Record)) (k : String) (v : Record) :
    List (String × Record) :=
  if m.any (fun p => p.1 == k) then
    m.map (fun p => if p.1 == k then (k, v) else p)
  else
    m ++ [(k, v)]

/-- Outcome of a whole run: either an uncaught exception out of
`isCondition` or a fatal `exit()` out of `parseCondition`. -/
inductive RunErr where
  | crash
  | fatal (e : CondErr)
deriving DecidableEq

/-- The body of `parseFile`'s loop for one descriptor record: skip it,
insert its condensed pair, or abort the run. -/
def parseFileStep (m : List (String × Record)) (d : Element) :
    Except RunErr (List (String × Record)) :=
  match isCondition d with
  | .error _ => .error .crash
  | .ok false => .ok m
  | .ok true =>
    match parseCondition d with
    | .error e => .error (.fatal e)
    | .ok tr => .ok (dictInsert m tr.1 tr.2)

/-- `parseFile`'s loop: iterate the root's children in document order,
building the term-keyed dict; the dict that is eventually serialized is
the fold's result, and an error aborts the run with nothing written. -/
def parseFile (root : Element) : Except RunErr (List (String × Record)) :=
  root.children.foldlM parseFileStep []

/-- The pairs the loop of `parseFile` actually inserts, in document order:
the `parseCondition` result of every child that `isCondition` accepts. -/
def condensedPairsOf (ds : List Element) : List (String × Record) :=
  ds.filterMap (fun d =>
    match isCondition d with
    | .ok true => (parseCondition d).toOption
    | _ => none)

/-- `condensedPairsOf` for the root's children. -/
def condensedPairs (root : Element) : List (String × Record) :=
  condensedPairsOf root.children

end MeSHParser

/-- One output row of the Expander. -/
structure AliasRow where
  alias_ : String
  term : String
deriving DecidableEq

namespace JSONMeSHAliasParser

/-- The Expander's `parseFile` loop: for each term of the mapping in its
native order, write one `(alias, term)` row per element of
`entry_terms`, in stored order.  The returned list is the sequence of
`out.writerow` calls. -/
def parseFile (data : List (String × Record)) : List AliasRow :=
  data.foldl (fun acc p =>
    p.2.entry_terms.foldl (fun acc2 a => acc2 ++ [⟨a, p.1⟩]) acc) []

end JSONMeSHAliasParser

/-- The flattening the spec describes for `condense`: the nested list of
concept groups, each yielding its term entries' text values, flattened
into one sequence and lowercased, preserving traversal order.  Written
from the spec's words, to be compared with the source's
`extractEntryTerms`. -/
def specAliases (conditionData : Element) : Option (List String) :=
  (conditionData.find ("ConceptList")).bind (fun conceptList =>
    ((conceptList.findall ("Concept")).mapM (fun (concept : Element) =>
      (concept.find ("TermList")).bind (fun termList =>
        (termList.findall ("Term")).mapM (fun (termX : Element) =>
          (termX.find ("String")).bind Element.text)))).map
      (fun ls => ls.flatten.map pyLower))

/-! ### Concrete example documents, used to instantiate the theorems -/

/-- A well-formed condition descriptor: name `Flu`, tree number
`C01.001`, entry terms `Influenza` and `Grippe` (the spec's end-to-end
scenario). -/
def fluEntry : Element :=
  .node ("DescriptorRecord") none
    [ .node ("DescriptorName") none [.node ("String") (some ("Flu")) []],
      .node ("TreeNumberList") none [.node ("TreeNumber") (some ("C01.001")) []],
      .node ("ConceptList") none
        [ .node ("Concept") none
            [ .node ("TermList") none
                [ .node ("Term") none [.node ("String") (some ("Influenza")) []],
                  .node ("Term") none [.node ("String") (some ("Grippe")) []] ] ] ] ]

/-- A descriptor with a non-condition tree number (`D01.002`). -/
def dEntry : Element :=
  .node ("DescriptorRecord") none
    [ .node ("DescriptorName") none [.node ("String") (some ("Other")) []],
      .node ("TreeNumberList") none [.node ("TreeNumber") (some ("D01.002")) []] ]

/-- A descriptor whose `TreeNumber` leaf exists but has no text: Python's
`code[0]` on `None` raises an uncaught `TypeError`. -/
def noTextEntry : Element :=
  .node ("DescriptorRecord") none
    [ .node ("TreeNumberList") none [.node ("TreeNumber") none []] ]

/-- A descriptor with no `TreeNumberList` at all. -/
def noTreeEntry : Element :=
  .node ("DescriptorRecord") none
    [ .node ("DescriptorName") none [.node ("String") (some ("Orphan")) []] ]

/-- A selected descriptor (`C` tree number) with no `DescriptorName`:
condensing it fails fatally on the term extraction. -/
def noNameEntry : Element :=
  .node ("DescriptorRecord") none
    [ .node ("TreeNumberList") none [.node ("TreeNumber") (some ("C99")) []] ]

/-- The record condensed from `fluEntry`. -/
def fluRecord : Record :=
  ⟨some ("C01.001"), ["influenza", "grippe"]⟩

/-- A second condition descriptor also named `Flu`, with a different tree
number and no entry terms: its canonical term collides with `fluEntry`. -/
def fluEntry2 : Element :=
  .node ("DescriptorRecord") none
    [ .node ("DescriptorName") none [.node ("String") (some ("Flu")) []],
      .node ("TreeNumberList") none [.node ("TreeNumber") (some ("C02.222")) []],
      .node ("ConceptList") none [] ]

/-- The record condensed from `fluEntry2`. -/
def fluRecord2 : Record :=
  ⟨some ("C02.222"), []⟩

/-! ### Lemmas about the lowercase normalization -/

theorem Char.toNat_ofNat_of_lt {n : Nat} (h : n < 55296) :
    (Char.ofNat n).toNat = n := by
  have hv : n.isValidChar := Or.inl h
  rw [Char.ofNat, dif_pos hv]
  rfl

theorem lowerChar_idem (c : Char) : lowerChar (lowerChar c) = lowerChar c := by
  unfold lowerChar
  split
  case isTrue h =>
    have ht : (Char.ofNat (c.toNat + 32)).toNat = c.toNat + 32 :=
      Char.toNat_ofNat_of_lt (by omega)
    rw [if_neg]
    rw [ht]
    omega
  case isFalse h =>
    rfl

theorem pyLower_data (s : String) : (pyLower s).data = s.data.map lowerChar := rfl

theorem pyLower_ne_empty (s : String) (h : s ≠ "") : pyLower s ≠ "" := by
  intro hc
  apply h
  have hd : (pyLower s).data = [] := by rw [hc]
  rw [pyLower_data, List.map_eq_nil_iff] at hd
  exact congrArg String.mk hd

/-! ### Lemmas about dict insertion -/

namespace MeSHParser

theorem mem_dictInsert {m : List (String × Record)} {k v p}
    (h : p ∈ dictInsert m k v) : p ∈ m ∨ p = (k, v) := by
  unfold dictInsert at h
  split at h
  · rcases List.mem_map.mp h with ⟨q, hq, hgq⟩
    by_cases hk : q.1 == k
    · right
      rw [if_pos hk] at hgq
      exact hgq.symm
    · left
      rw [if_neg hk] at hgq
      exact hgq ▸ hq
  · rcases List.mem_append.mp h with hm | hs
    · exact Or.inl hm
    · exact Or.inr (List.mem_singleton.mp hs)

theorem keys_dictInsert (m : List (String × Record)) (k v) :
    (dictInsert m k v).map Prod.fst =
      if m.any (fun p => p.1 == k) then m.map Prod.fst
      else m.map Prod.fst ++ [k] := by
  unfold dictInsert
  split
  · rw [List.map_map]
    apply List.map_congr_left
    intro q _
    by_cases hk : q.1 == k
    · simp only [Function.comp_apply, if_pos hk]
      exact (eq_of_beq hk).symm
    · simp only [Function.comp_apply, if_neg hk]
  · rw [List.map_append]
    rfl

theorem keysNodup_dictInsert {m : List (String × Record)} (k v)
    (h : (m.map Prod.fst).Nodup) : ((dictInsert m k v).map Prod.fst).Nodup := by
  rw [keys_dictInsert]
  split
  · exact h
  case isFalse hany =>
    rw [List.nodup_append]
    refine ⟨h, List.nodup_singleton k, ?_⟩
    intro a ha hb
    rw [List.mem_singleton] at hb
    subst hb
    rcases List.mem_map.mp ha with ⟨q, hq, hq1⟩
    exact hany (List.any_eq_true.mpr ⟨q, hq, by simp [hq1]⟩)

theorem find?_map_replace (k : String) (v : Record) (m : List (String × Record))
    (hany : m.any (fun p => p.1 == k) = true) :
    (m.map (fun p => if p.1 == k then (k, v) else p)).find? (fun p => p.1 == k)
      = some (k, v) := by
  induction m with
  | nil => simp at hany
  | cons q m ih =>
    cases hk : (q.1 == k) with
    | true =>
      simp only [List.map_cons, if_pos hk]
      simp [List.find?_cons]
    | false =>
      have hany' : m.any (fun p => p.1 == k) = true := by
        rw [List.any_cons] at hany
        simpa [hk] using hany
      have hnk : ¬((q.1 == k) = true) := by simp [hk]
      simp only [List.map_cons, if_neg hnk, List.find?_cons]
      rw [hk]
      exact ih hany'

theorem find?_dictInsert_self (m : List (String × Record)) (k v) :
    (dictInsert m k v).find? (fun p => p.1 == k) = some (k, v) := by
  unfold dictInsert
  split
  case isTrue hany =>
    exact find?_map_replace k v m hany
  case isFalse hany =>
    rw [List.find?_append]
    have hnone : m.find? (fun p => p.1 == k) = none := by
      rw [List.find?_eq_none]
      intro p hp
      intro hc
      exact hany (List.any_eq_true.mpr ⟨p, hp, hc⟩)
    rw [hnone]
    simp [List.find?_cons]

theorem find?_map_replace_ne (k : String) (v : Record) (t : String) (hne : t ≠ k)
    (m : List (String × Record)) :
    (m.map (fun p => if p.1 == k then (k, v) else p)).find? (fun p => p.1 == t)
      = m.find? (fun p => p.1 == t) := by
  induction m with
  | nil => rfl
  | cons q m ih =>
    cases hk : (q.1 == k) with
    | true =>
      have hq1 : q.1 = k := eq_of_beq hk
      have hkt : (k == t) = false := beq_false_of_ne (fun h => hne h.symm)
      have hqt : (q.1 == t) = false := by rw [hq1]; exact hkt
      simp only [List.map_cons, if_pos hk, List.find?_cons, hkt, hqt]
      exact ih
    | false =>
      have hnk : ¬((q.1 == k) = true) := by simp [hk]
      simp only [List.map_cons, if_neg hnk, List.find?_cons]
      cases hqt : (q.1 == t) with
      | true => rfl
      | false => exact ih

theorem find?_dictInsert_ne (m : List (String × Record)) (k v t) (hne : t ≠ k) :
    (dictInsert m k v).find? (fun p => p.1 == t) = m.find? (fun p => p.1 == t) := by
  unfold dictInsert
  split
  case isTrue hany =>
    exact find?_map_replace_ne k v t hne m
  case isFalse hany =>
    rw [List.find?_append]
    cases hm : m.find? (fun p => p.1 == t) with
    | some q => rfl
    | none =>
      have hkt : (k == t) = false := beq_false_of_ne (fun h => hne h.symm)
      simp [List.find?_cons, hkt]

theorem mem_iff_find? {m : List (String × Record)}
    (h : (m.map Prod.fst).Nodup) (t : String) (r : Record) :
    (t, r) ∈ m ↔ m.find? (fun p => p.1 == t) = some (t, r) := by
  induction m with
  | nil => simp
  | cons q m ih =>
    rw [List.map_cons, List.nodup_cons] at h
    constructor
    · intro hm
      rcases List.mem_cons.mp hm with hq | hm'
      · subst hq
        simp [List.find?_cons]
      · have hqt : (q.1 == t) = false := by
          apply beq_false_of_ne
          intro hc
          exact h.1 (hc ▸ List.mem_map.mpr ⟨(t, r), hm', rfl⟩)
        rw [List.find?_cons, hqt]
        exact (ih h.2 |>.mp hm')
    · intro hf
      rw [List.find?_cons] at hf
      cases hqt : (q.1 == t) with
      | true =>
        rw [hqt] at hf
        simp only [cond_true, Option.some_inj] at hf
        exact List.mem_cons.mpr (Or.inl hf.symm)
      | false =>
        rw [hqt] at hf
        simp only [cond_false] at hf
        exact List.mem_cons.mpr (Or.inr ((ih h.2).mpr hf))

end MeSHParser

/-! ### The fold underlying the Condenser's `parseFile` -/

namespace MeSHParser

theorem parseFileStep_crash {d : Element} (m : List (String × Record))
    (h : isCondition d = .error ()) : parseFileStep m d = .error .crash := by
  unfold parseFileStep
  rw [h]

theorem parseFileStep_skip {d : Element} (m : List (String × Record))
    (h : isCondition d = .ok false) : parseFileStep m d = .ok m := by
  unfold parseFileStep
  rw [h]

theorem parseFileStep_fatal {d : Element} {e : CondErr} (m : List (String × Record))
    (h1 : isCondition d = .ok true) (h2 : parseCondition d = .error e) :
    parseFileStep m d = .error (.fatal e) := by
  unfold parseFileStep
  rw [h1, h2]

theorem parseFileStep_insert {d : Element} {tr : String × Record}
    (m : List (String × Record)) (h1 : isCondition d = .ok true)
    (h2 : parseCondition d = .ok tr) :
    parseFileStep m d = .ok (dictInsert m tr.1 tr.2) := by
  unfold parseFileStep
  rw [h1, h2]

/-- When the loop completes without error, the resulting dict is the fold
of `dictInsert` over exactly the condensed pairs. -/
theorem foldlM_parseFileStep_ok (ds : List Element) :
    ∀ (m0 m : List (String × Record)),
    ds.foldlM parseFileStep m0 = .ok m →
    m = (condensedPairsOf ds).foldl (fun acc p => dictInsert acc p.1 p.2) m0 := by
  induction ds with
  | nil =>
    intro m0 m h
    rw [List.foldlM_nil] at h
    cases h
    rfl
  | cons d ds ih =>
    intro m0 m h
    rw [List.foldlM_cons] at h
    cases hc : isCondition d with
    | error u =>
      cases u
      rw [parseFileStep_crash m0 hc] at h
      exact Except.noConfusion h
    | ok b =>
      cases b with
      | false =>
        rw [parseFileStep_skip m0 hc] at h
        have h' : ds.foldlM parseFileStep m0 = .ok m := h
        have hcp : condensedPairsOf (d :: ds) = condensedPairsOf ds := by
          simp [condensedPairsOf, List.filterMap_cons, hc]
        rw [hcp]
        exact ih m0 m h'
      | true =>
        cases hp : parseCondition d with
        | error e =>
          rw [parseFileStep_fatal m0 hc hp] at h
          exact Except.noConfusion h
        | ok tr =>
          rw [parseFileStep_insert m0 hc hp] at h
          have h' : ds.foldlM parseFileStep (dictInsert m0 tr.1 tr.2) = .ok m := h
          have hcp : condensedPairsOf (d :: ds) = tr :: condensedPairsOf ds := by
            simp [condensedPairsOf, List.filterMap_cons, hc, hp, Except.toOption]
          rw [hcp, List.foldl_cons]
          exact ih (dictInsert m0 tr.1 tr.2) m h'

/-- When the loop completes without error, every child was processed
without crashing and, if selected, condensed successfully. -/
theorem foldlM_parseFileStep_ok_all (ds : List Element) :
    ∀ (m0 m : List (String × Record)),
    ds.foldlM parseFileStep m0 = .ok m →
    ∀ d ∈ ds, isCondition d ≠ .error () ∧
      (isCondition d = .ok true → ∃ tr, parseCondition d = .ok tr) := by
  induction ds with
  | nil =>
    intro m0 m _ d hd
    exact absurd hd (List.not_mem_nil d)
  | cons d0 ds ih =>
    intro m0 m h
    rw [List.foldlM_cons] at h
    intro d hd
    cases hc : isCondition d0 with
    | error u =>
      cases u
      rw [parseFileStep_crash m0 hc] at h
      exact Except.noConfusion h
    | ok b =>
      have step : ∃ m1, parseFileStep m0 d0 = .ok m1 ∧ ds.foldlM parseFileStep m1 = .ok m := by
        cases b with
        | false =>
          rw [parseFileStep_skip m0 hc] at h ⊢
          exact ⟨m0, rfl, h⟩
        | true =>
          cases hp : parseCondition d0 with
          | error e =>
            rw [parseFileStep_fatal m0 hc hp] at h
            exact Except.noConfusion h
          | ok tr =>
            rw [parseFileStep_insert m0 hc hp] at h ⊢
            exact ⟨dictInsert m0 tr.1 tr.2, rfl, h⟩
      rcases step with ⟨m1, _, hrest⟩
      rcases List.mem_cons.mp hd with hd0 | hds
      · subst hd0
        refine ⟨by rw [hc]; intro hcon; exact Except.noConfusion hcon, ?_⟩
        intro htrue
        rw [hc] at htrue
        cases htrue
        cases hp : parseCondition d with
        | error e =>
          rw [parseFileStep_fatal m0 hc hp] at h
          exact Except.noConfusion h
        | ok tr => exact ⟨tr, rfl⟩
      · exact ih m1 m hrest d hds

end MeSHParser

namespace MeSHParser

/-- Folding `dictInsert` keeps the keys duplicate-free. -/
theorem keysNodup_foldl_dictInsert (L : List (String × Record)) :
    ∀ (m0 : List (String × Record)), (m0.map Prod.fst).Nodup →
    ((L.foldl (fun acc p => dictInsert acc p.1 p.2) m0).map Prod.fst).Nodup := by
  induction L with
  | nil => intro m0 h; exact h
  | cons p L ih =>
    intro m0 h
    rw [List.foldl_cons]
    exact ih (dictInsert m0 p.1 p.2) (keysNodup_dictInsert p.1 p.2 h)

/-- Every pair of the folded dict comes from the seed or from the
inserted list. -/
theorem mem_foldl_dictInsert (L : List (String × Record)) :
    ∀ (m0 : List (String × Record)) (p : String × Record),
    p ∈ L.foldl (fun acc q => dictInsert acc q.1 q.2) m0 → p ∈ m0 ∨ p ∈ L := by
  induction L with
  | nil => intro m0 p h; exact Or.inl h
  | cons q L ih =>
    intro m0 p h
    rw [List.foldl_cons] at h
    rcases ih (dictInsert m0 q.1 q.2) p h with hm | hL
    · rcases mem_dictInsert hm with hm0 | hq
      · exact Or.inl hm0
      · exact Or.inr (List.mem_cons.mpr (Or.inl (by rw [hq])))
    · exact Or.inr (List.mem_cons.mpr (Or.inr hL))

/-- Looking a key up in the folded dict yields the last inserted pair with
that key, falling back to the seed dict. -/
theorem find?_foldl_dictInsert (L : List (String × Record)) :
    ∀ (m0 : List (String × Record)) (t : String),
    (L.foldl (fun acc p => dictInsert acc p.1 p.2) m0).find? (fun p => p.1 == t) =
      ((L.filter (fun p => p.1 == t)).getLast?).or (m0.find? (fun p => p.1 == t)) := by
  induction L with
  | nil =>
    intro m0 t
    simp
  | cons q L ih =>
    intro m0 t
    rw [List.foldl_cons, ih, List.filter_cons]
    by_cases hq : (q.1 == t) = true
    · have hq1 : q.1 = t := eq_of_beq hq
      rw [if_pos hq, List.getLast?_cons]
      have hself : (dictInsert m0 q.1 q.2).find? (fun p => p.1 == t) = some q := by
        rw [hq1, find?_dictInsert_self m0 t q.2]
        rw [← hq1]
      rw [hself]
      cases hL : (L.filter (fun p => p.1 == t)).getLast? with
      | none => simp [hL]
      | some r => simp [hL]
    · have hq' : (q.1 == t) = false := by
        cases hqt : (q.1 == t) with
        | true => exact absurd hqt hq
        | false => rfl
      rw [if_neg (by simp [hq'])]
      rw [find?_dictInsert_ne m0 q.1 q.2 t (fun h => by simp [h] at hq')]
  
end MeSHParser


namespace MeSHParser

/-- `isCondition` accepts a descriptor exactly when the first tree number
exists, has text, and that text's first character is `C`. -/
theorem isCondition_eq_ok_true_iff (d : Element) :
    isCondition d = .ok true ↔
      ∃ tnl tn s, d.find ("TreeNumberList") = some tnl ∧
        tnl.find ("TreeNumber") = some tn ∧ tn.text = some s ∧
        s.data.head? = some ('C') := by
  constructor
  · intro h
    cases h1 : d.find ("TreeNumberList") with
    | none => simp [isCondition, h1] at h
    | some tnl =>
      cases h2 : tnl.find ("TreeNumber") with
      | none => simp [isCondition, h1, h2] at h
      | some tn =>
        cases h3 : tn.text with
        | none => simp [isCondition, h1, h2, h3] at h
        | some code =>
          cases h4 : code.data with
          | nil => simp [isCondition, h1, h2, h3, h4] at h
          | cons c rest =>
            simp only [isCondition, h1, h2, h3, h4, Except.ok.injEq] at h
            refine ⟨tnl, tn, code, rfl, h2, h3, ?_⟩
            rw [h4, List.head?_cons, eq_of_beq h]
  · rintro ⟨tnl, tn, s, h1, h2, h3, h4⟩
    cases hd : s.data with
    | nil => rw [hd] at h4; exact Option.noConfusion h4
    | cons c rest =>
      rw [hd, List.head?_cons] at h4
      have hc : c = 'C' := Option.some.inj h4
      simp only [isCondition, h1, h2, h3, hd, hc, beq_self_eq_true]

theorem parseTermString_error {acc2 : List String} {termX : Element} {err : CondErr}
    (h : parseTermString acc2 termX = .error err) : err = .aliasErr := by
  cases h1 : termX.find ("String") with
  | none =>
    rw [parseTermString, h1] at h
    exact (Except.error.inj h).symm
  | some s =>
    cases h2 : s.text with
    | none =>
      rw [parseTermString, h1] at h
      simp only [h2] at h
      exact (Except.error.inj h).symm
    | some t =>
      rw [parseTermString, h1] at h
      simp only [h2] at h
      exact Except.noConfusion h

theorem foldlM_parseTermString_error (terms : List Element) :
    ∀ (acc : List String) (err : CondErr),
    terms.foldlM parseTermString acc = .error err → err = .aliasErr := by
  induction terms with
  | nil =>
    intro acc err h
    rw [List.foldlM_nil] at h
    exact Except.noConfusion h
  | cons termX terms ih =>
    intro acc err h
    rw [List.foldlM_cons] at h
    cases hp : parseTermString acc termX with
    | error e =>
      rw [hp] at h
      have he : e = err := Except.error.inj h
      exact he ▸ parseTermString_error hp
    | ok acc' =>
      rw [hp] at h
      exact ih acc' err h

theorem parseConceptTerms_error {acc : List String} {concept : Element} {err : CondErr}
    (h : parseConceptTerms acc concept = .error err) : err = .aliasErr := by
  cases h1 : concept.find ("TermList") with
  | none =>
    rw [parseConceptTerms, h1] at h
    exact (Except.error.inj h).symm
  | some termList =>
    rw [parseConceptTerms, h1] at h
    exact foldlM_parseTermString_error _ acc err h

theorem foldlM_parseConceptTerms_error (concepts : List Element) :
    ∀ (acc : List String) (err : CondErr),
    concepts.foldlM parseConceptTerms acc = .error err → err = .aliasErr := by
  induction concepts with
  | nil =>
    intro acc err h
    rw [List.foldlM_nil] at h
    exact Except.noConfusion h
  | cons concept concepts ih =>
    intro acc err h
    rw [List.foldlM_cons] at h
    cases hp : parseConceptTerms acc concept with
    | error e =>
      rw [hp] at h
      have he : e = err := Except.error.inj h
      exact he ▸ parseConceptTerms_error hp
    | ok acc' =>
      rw [hp] at h
      exact ih acc' err h

/-- The entry-terms block can only fail with the alias error. -/
theorem extractEntryTerms_error_eq {e : Element} {err : CondErr}
    (h : extractEntryTerms e = .error err) : err = .aliasErr := by
  cases h0 : e.find ("ConceptList") with
  | none =>
    rw [extractEntryTerms, h0] at h
    exact (Except.error.inj h).symm
  | some cl =>
    rw [extractEntryTerms, h0] at h
    exact foldlM_parseConceptTerms_error _ [] err h

end MeSHParser

namespace MeSHParser

/-- Inversion of a successful `parseTermString` call. -/
theorem parseTermString_ok_elim {acc acc' : List String} {termX : Element}
    (h : parseTermString acc termX = .ok acc') :
    ∃ txt, (termX.find ("String")).bind Element.text = some txt ∧
      acc' = acc ++ [pyLower txt] := by
  cases h1 : termX.find ("String") with
  | none => rw [parseTermString, h1] at h; exact Except.noConfusion h
  | some s =>
    cases h2 : s.text with
    | none =>
      rw [parseTermString, h1] at h
      simp only [h2] at h
      exact Except.noConfusion h
    | some txt =>
      rw [parseTermString, h1] at h
      simp only [h2] at h
      refine ⟨txt, ?_, (Except.ok.inj h).symm⟩
      rw [Option.some_bind]
      exact h2

/-- A successful inner loop appends exactly the lowercased texts of the
`Term/String` leaves, in order. -/
theorem foldlM_parseTermString_ok (terms : List Element) :
    ∀ (acc l : List String), terms.foldlM parseTermString acc = .ok l →
    ∃ raw, terms.mapM (fun termX => (termX.find ("String")).bind Element.text) = some raw ∧
      l = acc ++ raw.map pyLower := by
  induction terms with
  | nil =>
    intro acc l h
    rw [List.foldlM_nil] at h
    have : acc = l := Except.ok.inj h
    exact ⟨[], by rfl, by simp [this]⟩
  | cons termX terms ih =>
    intro acc l h
    rw [List.foldlM_cons] at h
    cases hp : parseTermString acc termX with
    | error e => rw [hp] at h; exact Except.noConfusion h
    | ok acc' =>
      rw [hp] at h
      rcases parseTermString_ok_elim hp with ⟨txt, htxt, hacc'⟩
      rcases ih acc' l h with ⟨raw, hraw, hl⟩
      refine ⟨txt :: raw, ?_, ?_⟩
      · rw [List.mapM_cons, htxt, hraw]
        rfl
      · rw [hl, hacc', List.map_cons, List.append_assoc]
        rfl

/-- Inversion of a successful `parseConceptTerms` call. -/
theorem parseConceptTerms_ok_elim {acc acc' : List String} {concept : Element}
    (h : parseConceptTerms acc concept = .ok acc') :
    ∃ raw, (concept.find ("TermList")).bind (fun termList =>
        (termList.findall ("Term")).mapM (fun termX =>
          (termX.find ("String")).bind Element.text)) = some raw ∧
      acc' = acc ++ raw.map pyLower := by
  cases h1 : concept.find ("TermList") with
  | none => rw [parseConceptTerms, h1] at h; exact Except.noConfusion h
  | some termList =>
    rw [parseConceptTerms, h1] at h
    rcases foldlM_parseTermString_ok _ acc acc' h with ⟨raw, hraw, hacc'⟩
    refine ⟨raw, ?_, hacc'⟩
    rw [Option.some_bind]
    exact hraw

/-- A successful outer loop appends the concatenation of the per-concept
alias lists, in order. -/
theorem foldlM_parseConceptTerms_ok (concepts : List Element) :
    ∀ (acc l : List String), concepts.foldlM parseConceptTerms acc = .ok l →
    ∃ raws, concepts.mapM (fun concept =>
        (concept.find ("TermList")).bind (fun termList =>
          (termList.findall ("Term")).mapM (fun termX =>
            (termX.find ("String")).bind Element.text))) = some raws ∧
      l = acc ++ raws.flatten.map pyLower := by
  induction concepts with
  | nil =>
    intro acc l h
    rw [List.foldlM_nil] at h
    have : acc = l := Except.ok.inj h
    exact ⟨[], by rfl, by simp [this]⟩
  | cons concept concepts ih =>
    intro acc l h
    rw [List.foldlM_cons] at h
    cases hp : parseConceptTerms acc concept with
    | error e => rw [hp] at h; exact Except.noConfusion h
    | ok acc' =>
      rw [hp] at h
      rcases parseConceptTerms_ok_elim hp with ⟨raw, hraw, hacc'⟩
      rcases ih acc' l h with ⟨raws, hraws, hl⟩
      refine ⟨raw :: raws, ?_, ?_⟩
      · rw [List.mapM_cons, hraw, hraws]
        rfl
      · rw [hl, hacc', List.flatten_cons, List.map_append, List.append_assoc]

end MeSHParser

namespace MeSHParser

/-- The source's entry-terms extraction refines the spec's flattening:
whenever it succeeds, it returns exactly the flattened lowercased
sequence. -/
theorem extractEntryTerms_ok_specAliases {e : Element} {l : List String}
    (h : extractEntryTerms e = .ok l) : specAliases e = some l := by
  cases h0 : e.find ("ConceptList") with
  | none => rw [extractEntryTerms, h0] at h; exact Except.noConfusion h
  | some cl =>
    rw [extractEntryTerms, h0] at h
    rcases foldlM_parseConceptTerms_ok _ [] l h with ⟨raws, hraws, hl⟩
    rw [specAliases, h0, Option.some_bind, hraws]
    rw [hl, List.nil_append]
    rfl

/-- Inversion of a successful `parseCondition` call: the term is the
lowercased name text, the code is the first tree number's text, and the
entry terms are a successful extraction. -/
theorem parseCondition_ok_elim {e : Element} {t : String} {r : Record}
    (h : parseCondition e = .ok (t, r)) :
    ∃ dn s nm, e.find ("DescriptorName") = some dn ∧ dn.find ("String") = some s ∧
      s.text = some nm ∧ t = pyLower nm ∧
      ∃ tnl tn, e.find ("TreeNumberList") = some tnl ∧
        tnl.find ("TreeNumber") = some tn ∧ r.mesh_code = tn.text ∧
        extractEntryTerms e = .ok r.entry_terms := by
  cases hb : (e.find ("DescriptorName")).bind (fun d => d.find ("String")) with
  | none => rw [parseCondition, hb] at h; exact Except.noConfusion h
  | some s =>
    rw [parseCondition, hb] at h
    cases h2 : s.text with
    | none => simp only [h2] at h; exact Except.noConfusion h
    | some nm =>
      simp only [h2] at h
      cases h3 : e.find ("TreeNumberList") with
      | none => simp only [h3] at h; exact Except.noConfusion h
      | some tnl =>
        simp only [h3] at h
        cases h4 : tnl.find ("TreeNumber") with
        | none => simp only [h4] at h; exact Except.noConfusion h
        | some tn =>
          simp only [h4] at h
          cases h5 : extractEntryTerms e with
          | error err => simp only [h5] at h; exact Except.noConfusion h
          | ok entryTerms =>
            simp only [h5, Except.ok.injEq, Prod.mk.injEq] at h
            rcases h with ⟨ht, hr⟩
            rcases Option.bind_eq_some.mp hb with ⟨dn, hdn, hdns⟩
            refine ⟨dn, s, nm, hdn, hdns, h2, ht.symm, tnl, tn, rfl, h4, ?_, ?_⟩
            · rw [← hr]
            · rw [← hr]

end MeSHParser

/-! ### Lemmas about the Expander -/

namespace JSONMeSHAliasParser

theorem foldl_writerow (t : String) (aliases : List String) :
    ∀ (acc : List AliasRow),
    aliases.foldl (fun acc2 a => acc2 ++ [⟨a, t⟩]) acc
      = acc ++ aliases.map (fun a => ⟨a, t⟩) := by
  induction aliases with
  | nil => intro acc; simp
  | cons a aliases ih =>
    intro acc
    rw [List.foldl_cons, ih, List.map_cons]
    simp

theorem parseFile_foldl_append (data : List (String × Record)) :
    ∀ (acc : List AliasRow),
    data.foldl (fun acc p =>
        p.2.entry_terms.foldl (fun acc2 a => acc2 ++ [⟨a, p.1⟩]) acc) acc
      = acc ++ data.flatMap (fun p => p.2.entry_terms.map (fun a => ⟨a, p.1⟩)) := by
  induction data with
  | nil => intro acc; simp
  | cons p data ih =>
    intro acc
    rw [List.foldl_cons, foldl_writerow, ih]
    simp

/-- The Expander's row sequence is the flattening of the mapping: one row
per alias, grouped by term in mapping order. -/
theorem parseFile_eq_flatMap (data : List (String × Record)) :
    parseFile data = data.flatMap (fun p => p.2.entry_terms.map (fun a => ⟨a, p.1⟩)) := by
  rw [parseFile, parseFile_foldl_append]
  simp

end JSONMeSHAliasParser

/-! ### Linking a completed run back to the selected entries -/

namespace MeSHParser

theorem mem_condensedPairsOf {ds : List Element} {p : String × Record}
    (h : p ∈ condensedPairsOf ds) :
    ∃ d ∈ ds, isCondition d = .ok true ∧ parseCondition d = .ok p := by
  rcases List.mem_filterMap.mp h with ⟨d, hd, hfd⟩
  refine ⟨d, hd, ?_⟩
  cases hc : isCondition d with
  | error u =>
    rw [hc] at hfd
    exact Option.noConfusion hfd
  | ok b =>
    cases b with
    | false =>
      rw [hc] at hfd
      exact Option.noConfusion hfd
    | true =>
      rw [hc] at hfd
      cases hp : parseCondition d with
      | error e =>
        rw [hp] at hfd
        exact Option.noConfusion hfd
      | ok q =>
        rw [hp] at hfd
        have : q = p := Option.some.inj hfd
        exact ⟨rfl, this ▸ rfl⟩

/-- Every pair of a successfully built mapping is the condensation of
some selected child of the root. -/
theorem parseFile_ok_mem {root : Element} {m : List (String × Record)}
    {p : String × Record} (h : parseFile root = .ok m) (hp : p ∈ m) :
    ∃ d ∈ root.children, isCondition d = .ok true ∧ parseCondition d = .ok p := by
  have hfold := foldlM_parseFileStep_ok root.children [] m h
  rw [hfold] at hp
  rcases mem_foldl_dictInsert _ [] p hp with h0 | hL
  · exact absurd h0 (List.not_mem_nil p)
  · exact mem_condensedPairsOf hL

end MeSHParser

/-! ### The claims -/

/-- C9: the text normalization applied to terms and aliases is
idempotent: for every string, lowercasing the lowercased string yields
the same value (`pyLower (pyLower s) = pyLower s`). -/
theorem C9_pyLower_idempotent (s : String) : pyLower (pyLower s) = pyLower s := by
  apply congrArg String.mk
  rw [pyLower_data, List.map_map]
  apply List.map_congr_left
  intro c _
  exact lowerChar_idem c

/-- C3: the Expander emits exactly one `(alias, term)` row per element of
each record's alias list, iterating terms in the mapping's native order
and aliases in stored order; a record with empty aliases yields zero
rows, and a row never pairs a term with itself unless the term occurs in
its own alias list. -/
theorem C3_expand_rows (m : List (String × Record)) :
    JSONMeSHAliasParser.parseFile m
      = m.flatMap (fun p => p.2.entry_terms.map (fun a => AliasRow.mk a p.1)) ∧
    (∀ row ∈ JSONMeSHAliasParser.parseFile m, row.alias_ = row.term →
      ∃ r, (row.term, r) ∈ m ∧ row.term ∈ r.entry_terms) ∧
    (∀ t r, r.entry_terms = [] → JSONMeSHAliasParser.parseFile [(t, r)] = []) := by
  refine ⟨JSONMeSHAliasParser.parseFile_eq_flatMap m, ?_, ?_⟩
  · intro row hrow heq
    rw [JSONMeSHAliasParser.parseFile_eq_flatMap] at hrow
    rcases List.mem_flatMap.mp hrow with ⟨p, hp, hmem⟩
    rcases List.mem_map.mp hmem with ⟨a, ha, hrow_eq⟩
    refine ⟨p.2, ?_, ?_⟩
    · have hterm : row.term = p.1 := by rw [← hrow_eq]
      rw [hterm]
      exact hp
    · have halias : row.alias_ = a := by rw [← hrow_eq]
      rw [← heq, halias]
      exact ha
  · intro t r hr
    rw [JSONMeSHAliasParser.parseFile_eq_flatMap]
    simp [hr]

theorem C3_expand_rows_witness :
    ∃ r, (("flu" : String), r)
        ∈ [(("flu" : String), Record.mk (some ("C01.001")) ["flu", "grippe"])] ∧
      ("flu" : String) ∈ r.entry_terms :=
  (C3_expand_rows [("flu", Record.mk (some ("C01.001")) ["flu", "grippe"])]).2.1
    ⟨"flu", "flu"⟩ (by decide) (by rfl)

/-- C4: the number of rows the Expander produces equals the sum over all
records of the length of that record's alias list. -/
theorem C4_row_count (m : List (String × Record)) :
    (JSONMeSHAliasParser.parseFile m).length
      = (m.map (fun p => p.2.entry_terms.length)).sum := by
  rw [JSONMeSHAliasParser.parseFile_eq_flatMap, List.length_flatMap]
  congr 1
  apply List.map_congr_left
  intro p _
  simp

/-- C1: the mapping built by the Condenser's `parseFile` contains records
only for source entries accepted by `isCondition`, i.e. entries whose
first tree number's text starts with `C`; every record present is the
condensation of at least one such selected entry, and acceptance is
exactly the first-character-`C` test on the first code leaf. -/
theorem C1_mapping_only_selected (root : Element) (m : List (String × Record))
    (h : MeSHParser.parseFile root = .ok m) :
    (∀ p ∈ m, ∃ d ∈ root.children, MeSHParser.isCondition d = .ok true ∧
        MeSHParser.parseCondition d = .ok p) ∧
    (∀ d : Element, MeSHParser.isCondition d = .ok true ↔
      ∃ tnl tn s, d.find ("TreeNumberList") = some tnl ∧
        tnl.find ("TreeNumber") = some tn ∧ tn.text = some s ∧
        s.data.head? = some ('C')) := by
  constructor
  · intro p hp
    exact MeSHParser.parseFile_ok_mem h hp
  · intro d
    exact MeSHParser.isCondition_eq_ok_true_iff d

theorem C1_mapping_only_selected_witness :
    MeSHParser.parseFile (Element.node ("DescriptorRecordSet") none [fluEntry, dEntry])
        = .ok [("flu", fluRecord)] ∧
    ∀ p ∈ [(("flu" : String), fluRecord)],
      ∃ d ∈ (Element.node ("DescriptorRecordSet") none [fluEntry, dEntry]).children,
        MeSHParser.isCondition d = .ok true ∧ MeSHParser.parseCondition d = .ok p :=
  ⟨by rfl,
   (C1_mapping_only_selected (Element.node ("DescriptorRecordSet") none [fluEntry, dEntry])
     [("flu", fluRecord)] (by rfl)).1⟩

/-- C2: when `parseCondition` succeeds on an entry, the returned pair
consists of the lowercased text of the entry's name path, a record whose
code is the first tree number's text with case untouched, and aliases
that are exactly the spec's flattening of the concept-group/term-entry
nesting into one lowercased sequence in traversal order. -/
theorem C2_condense_fields (e : Element) (t : String) (r : Record)
    (h : MeSHParser.parseCondition e = .ok (t, r)) :
    (∃ dn s nm, e.find ("DescriptorName") = some dn ∧ dn.find ("String") = some s ∧
      s.text = some nm ∧ t = pyLower nm) ∧
    (∃ tnl tn, e.find ("TreeNumberList") = some tnl ∧
      tnl.find ("TreeNumber") = some tn ∧ r.mesh_code = tn.text) ∧
    specAliases e = some r.entry_terms := by
  rcases MeSHParser.parseCondition_ok_elim h with
    ⟨dn, s, nm, hdn, hdns, htext, ht, tnl, tn, htnl, htn, hcode, hextract⟩
  exact ⟨⟨dn, s, nm, hdn, hdns, htext, ht⟩, ⟨tnl, tn, htnl, htn, hcode⟩,
    MeSHParser.extractEntryTerms_ok_specAliases hextract⟩

theorem C2_condense_fields_witness :
    MeSHParser.parseCondition fluEntry = .ok ("flu", fluRecord) ∧
    specAliases fluEntry = some fluRecord.entry_terms :=
  ⟨by rfl, (C2_condense_fields fluEntry ("flu") fluRecord (by rfl)).2.2⟩

/-- C5: when the Condenser's `parseFile` completes, each term keys
exactly one record (keys are duplicate-free), and the record stored under
a term is the condensation of the last selected entry in document order
whose lowercased name is that term: last write wins, and the run
completes without any error outcome. -/
theorem C5_last_write_wins (root : Element) (m : List (String × Record))
    (h : MeSHParser.parseFile root = .ok m) :
    ((m.map Prod.fst).Nodup) ∧
    (∀ t r, (t, r) ∈ m ↔
      ((MeSHParser.condensedPairs root).filter (fun p => p.1 == t)).getLast?
        = some (t, r)) := by
  have hfold := MeSHParser.foldlM_parseFileStep_ok root.children [] m h
  have hnodup : (m.map Prod.fst).Nodup := by
    rw [hfold]
    exact MeSHParser.keysNodup_foldl_dictInsert _ [] (by simp)
  refine ⟨hnodup, ?_⟩
  intro t r
  rw [MeSHParser.mem_iff_find? hnodup t r]
  rw [hfold, MeSHParser.find?_foldl_dictInsert]
  simp [MeSHParser.condensedPairs]

theorem C5_last_write_wins_witness :
    MeSHParser.parseFile (Element.node ("DescriptorRecordSet") none [fluEntry, fluEntry2])
        = .ok [("flu", fluRecord2)] ∧
    ((("flu" : String), fluRecord2) ∈ [(("flu" : String), fluRecord2)] ↔
      ((MeSHParser.condensedPairs
          (Element.node ("DescriptorRecordSet") none [fluEntry, fluEntry2])).filter
        (fun p => p.1 == "flu")).getLast? = some ("flu", fluRecord2)) :=
  ⟨by rfl,
   (C5_last_write_wins (Element.node ("DescriptorRecordSet") none [fluEntry, fluEntry2])
     [("flu", fluRecord2)] (by rfl)).2 ("flu") fluRecord2⟩

/-- C6 counterexample: an entry whose `TreeNumber` leaf is present but
has no text is not skipped: `isCondition` hits an uncaught exception
(`code[0]` on `None` happens outside the `try`), and a run over a
document containing the entry crashes instead of completing. -/
theorem C6_counterexample :
    MeSHParser.isCondition noTextEntry = .error () ∧
    MeSHParser.parseFile (Element.node ("DescriptorRecordSet") none [noTextEntry])
      = .error MeSHParser.RunErr.crash :=
  ⟨rfl, rfl⟩

/-- C6 (amended): for every entry whose category-code path is
structurally absent (no `TreeNumberList` child, or no `TreeNumber` leaf
inside it), `isCondition` returns false and the entry is skipped without
error, the mapping unchanged; but an entry whose code leaf exists with
empty or missing text instead raises an uncaught error, as the
counterexample shows. -/
theorem C6_lenient_selection_amended (e : Element)
    (h : e.find ("TreeNumberList") = none ∨
         ∃ tnl, e.find ("TreeNumberList") = some tnl ∧
           tnl.find ("TreeNumber") = none) :
    MeSHParser.isCondition e = .ok false ∧
    ∀ m, MeSHParser.parseFileStep m e = .ok m := by
  have hic : MeSHParser.isCondition e = .ok false := by
    rcases h with h1 | ⟨tnl, h1, h2⟩
    · simp [MeSHParser.isCondition, h1]
    · simp [MeSHParser.isCondition, h1, h2]
  exact ⟨hic, fun m => MeSHParser.parseFileStep_skip m hic⟩

theorem C6_lenient_selection_amended_witness :
    MeSHParser.isCondition noTreeEntry = .ok false ∧
    MeSHParser.parseFileStep [] noTreeEntry = .ok [] :=
  ⟨(C6_lenient_selection_amended noTreeEntry (Or.inl (by rfl))).1,
   (C6_lenient_selection_amended noTreeEntry (Or.inl (by rfl))).2 []⟩

/-- C7: if any selected entry fails condensation, the whole run aborts
with no mapping produced (nothing is ever written), and the three
diagnostics printed by the condensation branches are pairwise distinct,
so the failed field is identified. -/
theorem C7_fatal_condense_abort (root : Element)
    (h : ∃ d ∈ root.children, MeSHParser.isCondition d = .ok true ∧
         ∃ err, MeSHParser.parseCondition d = .error err) :
    (∀ m, MeSHParser.parseFile root ≠ .ok m) ∧
    (∀ e1 e2 : CondErr, condErrMsg e1 = condErrMsg e2 → e1 = e2) := by
  constructor
  · intro m hm
    rcases h with ⟨d, hd, htrue, err, herr⟩
    rcases MeSHParser.foldlM_parseFileStep_ok_all root.children [] m hm d hd with
      ⟨_, hsel⟩
    rcases hsel htrue with ⟨tr, htr⟩
    rw [htr] at herr
    exact Except.noConfusion herr
  · intro e1 e2 hmsg
    cases e1 <;> cases e2 <;> first
      | rfl
      | exact absurd hmsg (by decide)

theorem C7_fatal_condense_abort_witness :
    (MeSHParser.isCondition noNameEntry = .ok true ∧
      MeSHParser.parseCondition noNameEntry = .error CondErr.termErr) ∧
    ∀ m, MeSHParser.parseFile
        (Element.node ("DescriptorRecordSet") none [fluEntry, noNameEntry]) ≠ .ok m :=
  ⟨⟨by rfl, by rfl⟩,
   (C7_fatal_condense_abort (Element.node ("DescriptorRecordSet") none [fluEntry, noNameEntry])
     ⟨noNameEntry, List.Mem.tail _ (List.Mem.head _),
      by rfl, CondErr.termErr, by rfl⟩).1⟩

/-- C10: an entry accepted by `isCondition` can never trigger
`parseCondition`'s code-extraction error: the selection already read the
first tree number's text, so the second read of the same path cannot
fail, and the fatal MeSH-code exit is unreachable for selected entries. -/
theorem C10_code_branch_unreachable (e : Element)
    (h : MeSHParser.isCondition e = .ok true) :
    MeSHParser.parseCondition e ≠ .error CondErr.codeErr := by
  rcases (MeSHParser.isCondition_eq_ok_true_iff e).mp h with
    ⟨tnl, tn, s, h1, h2, h3, h4⟩
  intro hc
  cases hb : (e.find ("DescriptorName")).bind (fun d => d.find ("String")) with
  | none =>
    rw [MeSHParser.parseCondition, hb] at hc
    exact CondErr.noConfusion (Except.error.inj hc)
  | some s0 =>
    rw [MeSHParser.parseCondition, hb] at hc
    cases ht : s0.text with
    | none =>
      simp only [ht] at hc
      exact CondErr.noConfusion (Except.error.inj hc)
    | some nm =>
      simp only [ht, h1, h2] at hc
      cases hx : MeSHParser.extractEntryTerms e with
      | error err =>
        simp only [hx] at hc
        have haf := MeSHParser.extractEntryTerms_error_eq hx
        rw [haf] at hc
        exact CondErr.noConfusion (Except.error.inj hc)
      | ok l =>
        simp only [hx] at hc
        exact Except.noConfusion hc

theorem C10_code_branch_unreachable_witness :
    MeSHParser.isCondition fluEntry = .ok true ∧
    MeSHParser.parseCondition fluEntry ≠ .error CondErr.codeErr :=
  ⟨by rfl, C10_code_branch_unreachable fluEntry (by rfl)⟩

/-- C8: every record in a completed mapping is keyed by a non-empty term;
the hypothesis that name leaves never carry empty text reflects the
document source (ElementTree parsing yields `None`, never the empty
string, for an empty element), while code and aliases are unconstrained. -/
theorem C8_nonempty_term_keys (root : Element) (m : List (String × Record))
    (h : MeSHParser.parseFile root = .ok m)
    (hw : ∀ c ∈ root.children, ∀ dn s, c.find ("DescriptorName") = some dn →
          dn.find ("String") = some s → s.text ≠ some "") :
    ∀ t r, (t, r) ∈ m → t ≠ "" := by
  intro t r hm
  rcases MeSHParser.parseFile_ok_mem h hm with ⟨d, hd, _, hp⟩
  rcases MeSHParser.parseCondition_ok_elim hp with
    ⟨dn, s, nm, hdn, hdns, htext, ht, _, _, _, _, _, _⟩
  have hnm : nm ≠ "" := by
    intro hcc
    exact hw d hd dn s hdn hdns (hcc ▸ htext)
  rw [ht]
  exact pyLower_ne_empty nm hnm

theorem C8_nonempty_term_keys_witness :
    MeSHParser.parseFile (Element.node ("DescriptorRecordSet") none [fluEntry])
        = .ok [("flu", fluRecord)] ∧ ("flu" : String) ≠ "" :=
  ⟨by rfl,
   C8_nonempty_term_keys (Element.node ("DescriptorRecordSet") none [fluEntry])
     [("flu", fluRecord)] (by rfl)
     (by
       intro c hc dn s hdn hdns
       have hc' : c = fluEntry := by
         rcases List.mem_cons.mp hc with h | h
         · exact h
         · exact absurd h (List.not_mem_nil c)
       subst hc'
       have hdn2 : dn = Element.node ("DescriptorName") none
           [Element.node ("String") (some ("Flu")) []] := by
         have hdn3 : some (Element.node ("DescriptorName") none
             [Element.node ("String") (some ("Flu")) []]) = some dn := hdn
         exact (Option.some.inj hdn3).symm
       subst hdn2
       have hs : s = Element.node ("String") (some ("Flu")) [] := by
         have hs2 : some (Element.node ("String") (some ("Flu")) []) = some s := hdns
         exact (Option.some.inj hs2).symm
       subst hs
       intro hcc
       have hf : ("Flu" : String) = "" := Option.some.inj hcc
       exact absurd hf (by decide))
     ("flu") fluRecord (by decide)⟩
